import Mathlib

/- Verification of the fastann randomized kd-tree forest (src/nn_kdtree.hpp) against
   its natural-language specification. The template element type Float is embedded as
   the exact rationals; machine indices are Nat. Loops are embedded as structural
   recursions on an explicit variant. -/

namespace Fastann

/-- Source constant: leaves hold at most 14 point indices. -/
def leaf_max_points : Nat := 14

/-- Source constant: at most 128 points are sampled for the variance estimate. -/
def varest_max_points : Nat := 128

/-- Source constant: the split dimension is drawn from the top min(5, D) variances. -/
def varest_max_randsz : Nat := 5

/-- Modelled from the spec: the deterministic random stream of randomkit.h, which is
not under src. Spec section 6: the stream is seeded once, is a deterministic function
of the seed, and advances by one position per draw. -/
structure RKState where
  seq : Nat → Nat
  pos : Nat

/-- Modelled from the spec: next_in_range(max) returns an integer in [0, max] and
advances the stream by one position. -/
def rk_interval (mx : Nat) (s : RKState) : Nat × RKState :=
  (s.seq s.pos % (mx + 1), ⟨s.seq, s.pos + 1⟩)

/-- Modelled from the spec: seeding the stream; g is the generator algorithm mapping a
seed to the stream of raw draws. -/
def rk_seed (g : Nat → Nat → Nat) (seed : Nat) : RKState :=
  ⟨g seed, 0⟩

/-- Value of point i along dimension d: pnts[i * D + d] in the flat point array. -/
def coord (pnts : List ℚ) (D i d : Nat) : ℚ :=
  pnts.getD (i * D + d) 0

/-- Modelled from the spec: the squared euclidean distance primitive of
dist_l2_funcs.hpp, which is not under src. Spec section 6: squared_distance of the
query and a candidate over D dimensions. -/
def sqDist (q pnts : List ℚ) (D i : Nat) : ℚ :=
  ((List.range D).map (fun d => (q.getD d 0 - coord pnts D i d) ^ 2)).sum

/-- A kdtree_node: a leaf holds its point indices; an internal node holds two children,
the discriminant threshold disc and the discriminant dimension discDim. -/
inductive KDNode where
  | leaf (idxs : List Nat)
  | node (lt rt : KDNode) (disc : ℚ) (discDim : Nat)
deriving DecidableEq, Repr

/-- Comparator of std::greater on (variance, dimension) pairs: a strictly after b in
descending lexicographic order. -/
def pairGtB (a b : ℚ × Nat) : Bool :=
  decide (b.1 < a.1) || (decide (a.1 = b.1) && decide (b.2 < a.2))

/-- Insertion step of the descending sort of dimension variances. -/
def insertDesc (x : ℚ × Nat) : List (ℚ × Nat) → List (ℚ × Nat)
  | [] => [x]
  | y :: ys => if pairGtB x y then x :: y :: ys else y :: insertDesc x ys

/-- Descending sort of (variance, dimension) pairs. The source uses std::partial_sort
with std::greater over the first min(5, D) positions; since the comparator is a strict
total order here (dimension indices are distinct), those positions agree with the full
descending sort. -/
def sortDesc : List (ℚ × Nat) → List (ℚ × Nat)
  | [] => []
  | x :: xs => insertDesc x (sortDesc xs)

/-- kdtree_node::choose_split: sample the first min(N, 128) points of the range,
compute per-dimension sums and sums of squares, form the variance
(sum_xx - (1/count) * sum_x * sum_x) / (count - 1) for count above one and zero
otherwise, order dimensions by descending variance, draw one of the top min(5, D)
from the stream, and return it with the sample mean as threshold. -/
def choose_split (pnts : List ℚ) (D : Nat) (inds : List Nat) (s : RKState) :
    (Nat × ℚ) × RKState :=
  let sample := inds.take varest_max_points
  let count := sample.length
  let sum_x := fun d => (sample.map (fun i => coord pnts D i d)).sum
  let sum_xx := fun d => (sample.map (fun i => coord pnts D i d * coord pnts D i d)).sum
  let varOf := fun d =>
    if count ≤ 1 then (0 : ℚ)
    else (sum_xx d - ((1 : ℚ) / count) * sum_x d * sum_x d) / ((count : ℚ) - 1)
  let var_dim := (List.range D).map (fun d => (varOf d, d))
  let nrand := min varest_max_randsz D
  let rs := rk_interval (nrand - 1) s
  let randd := ((sortDesc var_dim).getD rs.1 (0, 0)).2
  ((randd, sum_x randd / (count : ℚ)), rs.2)

/-- std::swap of inds[i] and inds[j] on the embedded index array. -/
def swapL (xs : List Nat) (i j : Nat) : List Nat :=
  (xs.set i (xs.getD j 0)).set j (xs.getD i 0)

/-- The in-place two-pointer partition loop of kdtree_node::split_points: while l and r
differ, advance l past values below disc, otherwise decrement r and swap inds[l] with
inds[r]. The first argument is the loop variant r - l, making the recursion
structural. -/
def hoareGo (pnts : List ℚ) (D dd : Nat) (disc : ℚ) :
    Nat → List Nat → Nat → Nat → List Nat × Nat
  | 0, inds, l, _ => (inds, l)
  | gas + 1, inds, l, r =>
    if coord pnts D (inds.getD l 0) dd < disc then
      hoareGo pnts D dd disc gas inds (l + 1) r
    else
      hoareGo pnts D dd disc gas (swapL inds l (r - 1)) l (r - 1)

/-- The full partition of a range: l starts at 0 and r at the range length. -/
def hoarePartition (pnts : List ℚ) (D dd : Nat) (disc : ℚ) (inds : List Nat) :
    List Nat × Nat :=
  hoareGo pnts D dd disc inds.length inds 0 inds.length

/-- kdtree_node::split_points up to the recursive child builds: choose the split,
partition the range, and apply the degenerate fallback l = N / 2 when either
partition is empty. Returns (discDim, disc), the rearranged indices, the final left
size l, and the advanced RNG state. -/
def splitStep (pnts : List ℚ) (D : Nat) (inds : List Nat) (s : RKState) :
    (Nat × ℚ) × List Nat × Nat × RKState :=
  let css := choose_split pnts D inds s
  let pl := hoarePartition pnts D css.1.1 css.1.2 inds
  let l := if pl.2 = 0 ∨ pl.2 = inds.length then inds.length / 2 else pl.2
  (css.1, pl.1, l, css.2)

/-- The kdtree_node constructor: a range of at most leaf_max_points indices becomes a
leaf; a larger range is split and both halves built recursively (left first, as in
the source, so the RNG state threads left to right). The fuel argument only bounds
the recursion depth: any fuel at least the range length yields the same result
(buildNode_fuel_irrel below), and an exhausted-fuel range is returned as a leaf.
Returns the node, the final contents of the index subrange, and the RNG state. -/
def buildNode (pnts : List ℚ) (D : Nat) :
    Nat → List Nat → RKState → KDNode × List Nat × RKState
  | 0, inds, s => (.leaf inds, inds, s)
  | fuel + 1, inds, s =>
    if leaf_max_points < inds.length then
      let st := splitStep pnts D inds s
      let bl := buildNode pnts D fuel (st.2.1.take st.2.2.1) st.2.2.2
      let br := buildNode pnts D fuel (st.2.1.drop st.2.2.1) bl.2.2
      (.node bl.1 br.1 st.1.2 st.1.1, bl.2.1 ++ br.2.1, br.2.2)
    else (.leaf inds, inds, s)

/-- The left partition size before the degenerate fallback. -/
def partL0 (pnts : List ℚ) (D : Nat) (inds : List Nat) (s : RKState) : Nat :=
  (hoarePartition pnts D (choose_split pnts D inds s).1.1
    (choose_split pnts D inds s).1.2 inds).2

/-- The discriminant dimension chosen by splitStep. -/
def splitDim (pnts : List ℚ) (D : Nat) (inds : List Nat) (s : RKState) : Nat :=
  (splitStep pnts D inds s).1.1

/-- The discriminant threshold chosen by splitStep. -/
def splitDisc (pnts : List ℚ) (D : Nat) (inds : List Nat) (s : RKState) : ℚ :=
  (splitStep pnts D inds s).1.2

/-- The index array as rearranged by the partition of splitStep. -/
def splitInds (pnts : List ℚ) (D : Nat) (inds : List Nat) (s : RKState) : List Nat :=
  (splitStep pnts D inds s).2.1

/-- The left range size produced by splitStep, after the degenerate fallback. -/
def splitL (pnts : List ℚ) (D : Nat) (inds : List Nat) (s : RKState) : Nat :=
  (splitStep pnts D inds s).2.2.1

/-- The RNG state after splitStep. -/
def splitState (pnts : List ℚ) (D : Nat) (inds : List Nat) (s : RKState) : RKState :=
  (splitStep pnts D inds s).2.2.2

/-- The subrange handed to the left child build. -/
def leftRange (pnts : List ℚ) (D : Nat) (inds : List Nat) (s : RKState) : List Nat :=
  (splitInds pnts D inds s).take (splitL pnts D inds s)

/-- The subrange handed to the right child build. -/
def rightRange (pnts : List ℚ) (D : Nat) (inds : List Nat) (s : RKState) : List Nat :=
  (splitInds pnts D inds s).drop (splitL pnts D inds s)

/-- The result of the nn_kdtree constructor, instrumented with the contents of the
index array at the start of each tree build (startLogs) and its final contents. -/
structure ForestOut where
  trees : List KDNode
  startLogs : List (List Nat)
  finalInds : List Nat
  state : RKState

/-- The tree-building loop of the nn_kdtree constructor: every iteration hands the
same index array to the next tree build, as the source does, without resetting it. -/
def buildTrees (pnts : List ℚ) (D : Nat) :
    Nat → List Nat → RKState → List KDNode × List (List Nat) × List Nat × RKState
  | 0, inds, s => ([], [], inds, s)
  | t + 1, inds, s =>
    let b := buildNode pnts D inds.length inds s
    let rec1 := buildTrees pnts D t b.2.1 b.2.2
    (b.1 :: rec1.1, inds :: rec1.2.1, rec1.2.2.1, rec1.2.2.2)

/-- The nn_kdtree constructor: seed the RNG stream once, create the identity index
permutation once, and build ntrees trees in sequence over that same array. -/
def buildForest (pnts : List ℚ) (N D ntrees seed : Nat) (g : Nat → Nat → Nat) :
    ForestOut :=
  let s := rk_seed g seed
  let bt := buildTrees pnts D ntrees (List.range N) s
  ⟨bt.1, bt.2.1, bt.2.2.1, bt.2.2.2⟩

/-- All point indices stored in the leaves of a subtree, left to right. -/
def treeInds : KDNode → List Nat
  | .leaf idxs => idxs
  | .node lt rt _ _ => treeInds lt ++ treeInds rt

/-- Number of nodes of a tree. -/
def nodeCount : KDNode → Nat
  | .leaf _ => 1
  | .node lt rt _ _ => nodeCount lt + nodeCount rt + 1

/-- The leaf scan of kdtree_node::search: every index but the last is scored if unseen
and then marked seen; the last index is scored if unseen but, exactly as in the
source, never marked seen. An empty leaf is returned unchanged (the source loop
would underflow there; leaves of a built tree over a nonempty range are nonempty). -/
def leafScan (q pnts : List ℚ) (D : Nat) :
    List Nat → List (Nat × ℚ) → List Bool → List (Nat × ℚ) × List Bool
  | [], nns, seen => (nns, seen)
  | [i], nns, seen =>
    if seen.getD i false then (nns, seen)
    else (nns ++ [(i, sqDist q pnts D i)], seen)
  | i :: j :: rest, nns, seen =>
    if seen.getD i false then leafScan q pnts D (j :: rest) nns seen
    else leafScan q pnts D (j :: rest) (nns ++ [(i, sqDist q pnts D i)]) (seen.set i true)

/-- Output of one best-bin-first descent: the frontier entries pushed on the way down,
and the updated candidate list and seen markers. -/
structure NSOut where
  pushes : List (ℚ × KDNode)
  nns : List (Nat × ℚ)
  seen : List Bool
deriving DecidableEq, Repr

/-- kdtree_node::search: descend from this node to a leaf, at every internal node
following the side of the threshold the query falls on and pushing the other side
with bound mindsq + diff * diff (mindsq stays fixed for the whole descent, as in the
source), then scan the reached leaf. -/
def nodeSearch (q pnts : List ℚ) (D : Nat) :
    KDNode → ℚ → List (Nat × ℚ) → List Bool → NSOut
  | .leaf idxs, _, nns, seen =>
    let ls := leafScan q pnts D idxs nns seen
    ⟨[], ls.1, ls.2⟩
  | .node lt rt disc dd, mindsq, nns, seen =>
    let diff := q.getD dd 0 - disc
    if diff < 0 then
      let r := nodeSearch q pnts D lt mindsq nns seen
      ⟨(mindsq + diff * diff, rt) :: r.pushes, r.nns, r.seen⟩
    else
      let r := nodeSearch q pnts D rt mindsq nns seen
      ⟨(mindsq + diff * diff, lt) :: r.pushes, r.nns, r.seen⟩

/-- Pop the minimum-bound entry of the frontier queue. The source priority queue is
ordered by (bound, node pointer); the unspecified pointer tiebreak is modelled as
first-in-queue-order among minimal bounds. Returns none on an empty queue, which in
the source is undefined behaviour (top and pop on an empty priority queue). -/
def popMin : List (ℚ × KDNode) → Option ((ℚ × KDNode) × List (ℚ × KDNode))
  | [] => none
  | x :: xs =>
    match popMin xs with
    | none => some (x, [])
    | some (m, rest) => if x.1 ≤ m.1 then some (x, xs) else some (m, x :: rest)

/-- The initial per-tree descents of nn_kdtree::search: every tree is searched once
with base bound 0, accumulating the frontier queue, candidates and seen markers. -/
def initDescents (q pnts : List ℚ) (D : Nat) :
    List KDNode → List (ℚ × KDNode) → List (Nat × ℚ) → List Bool →
    List (ℚ × KDNode) × List (Nat × ℚ) × List Bool
  | [], queue, nns, seen => (queue, nns, seen)
  | t :: ts, queue, nns, seen =>
    let r := nodeSearch q pnts D t 0 nns seen
    initDescents q pnts D ts (queue ++ r.pushes) r.nns r.seen

/-- The budget loop of nn_kdtree::search: while the candidate list is shorter than
nchecks, pop the best frontier entry and search its subtree with the popped bound as
base. Returns none when the pop hits an empty queue, which is undefined behaviour in
the source. The fuel bounds the iterations; searchCore passes one more than the node
count of the forest, which the loop cannot exhaust since every node enters the queue
at most once. The log accumulates every entry ever pushed by the loop. -/
def drain (q pnts : List ℚ) (D nchecks : Nat) :
    Nat → List (ℚ × KDNode) → List (Nat × ℚ) → List Bool → List (ℚ × KDNode) →
    Option (List (Nat × ℚ) × List (ℚ × KDNode))
  | 0, _, _, _, _ => none
  | fuel + 1, queue, nns, seen, log =>
    if nns.length < nchecks then
      match popMin queue with
      | none => none
      | some (e, rest) =>
        let r := nodeSearch q pnts D e.2 e.1 nns seen
        drain q pnts D nchecks fuel (rest ++ r.pushes) r.nns r.seen (log ++ r.pushes)
    else some (nns, log)

/-- Insertion step of the ascending-by-distance sort. -/
def insertByDist (x : Nat × ℚ) : List (Nat × ℚ) → List (Nat × ℚ)
  | [] => [x]
  | y :: ys => if x.2 < y.2 then x :: y :: ys else y :: insertByDist x ys

/-- The final ordering step of nn_kdtree::search. The source partially sorts nns
ascending by squared distance (second_cmp_functor) far enough to materialize the
first numnn entries; a stable insertion sort agrees with it on those entries up to
the order of distance ties, which std::partial_sort leaves unspecified. -/
def sortByDist : List (Nat × ℚ) → List (Nat × ℚ)
  | [] => []
  | x :: xs => insertByDist x (sortByDist xs)

/-- Result of nn_kdtree::search, instrumented with the raw candidate list and the log
of every frontier entry pushed during the whole call. -/
structure SearchOut where
  result : List (Nat × ℚ)
  nns : List (Nat × ℚ)
  pushLog : List (ℚ × KDNode)
deriving DecidableEq, Repr

/-- The state of nn_kdtree::search after the initial descents: the frontier queue,
the candidate list and the seen markers. -/
def searchInit (pnts : List ℚ) (N D : Nat) (trees : List KDNode) (q : List ℚ) :
    List (ℚ × KDNode) × List (Nat × ℚ) × List Bool :=
  initDescents q pnts D trees [] [] (List.replicate N false)

/-- The state of nn_kdtree::search after the budget loop, with nchecks already raised
to at least numnn as the source does first. The push log starts as the initial
queue, which holds exactly the entries pushed by the initial descents. -/
def searchDrained (pnts : List ℚ) (N D : Nat) (trees : List KDNode) (q : List ℚ)
    (numnn nchecks0 : Nat) : Option (List (Nat × ℚ) × List (ℚ × KDNode)) :=
  drain q pnts D (max nchecks0 numnn) ((trees.map nodeCount).sum + 1)
    (searchInit pnts N D trees q).1 (searchInit pnts N D trees q).2.1
    (searchInit pnts N D trees q).2.2 (searchInit pnts N D trees q).1

/-- nn_kdtree::search: raise nchecks to numnn, run the initial descents, drain the
frontier until the budget is met, then sort and return the first
min(numnn, nchecks) candidates. none models the undefined branches of the source:
popping an empty priority queue, and partially sorting past the end of nns. -/
def searchCore (pnts : List ℚ) (N D : Nat) (trees : List KDNode) (q : List ℚ)
    (numnn nchecks0 : Nat) : Option SearchOut :=
  match searchDrained pnts N D trees q numnn nchecks0 with
  | none => none
  | some (nns, log) =>
    if numnn ≤ nns.length then
      some ⟨(sortByDist nns).take (min numnn (max nchecks0 numnn)), nns, log⟩
    else none

/-- The exact brute-force reference: every point scored, sorted ascending by squared
distance, first k taken. -/
def bruteNN (pnts : List ℚ) (N D : Nat) (q : List ℚ) (k : Nat) : List (Nat × ℚ) :=
  (sortByDist ((List.range N).map (fun i => (i, sqDist q pnts D i)))).take k

/-- The strict split invariant claimed by the spec: at every internal node the left
subtree lies strictly below the threshold on the discriminant dimension and the
right subtree lies at or above it. -/
def StrictInv (pnts : List ℚ) (D : Nat) : KDNode → Prop
  | .leaf _ => True
  | .node lt rt disc dd =>
    (∀ i ∈ treeInds lt, coord pnts D i dd < disc) ∧
    (∀ i ∈ treeInds rt, disc ≤ coord pnts D i dd) ∧
    StrictInv pnts D lt ∧ StrictInv pnts D rt

/-- Decision procedure for StrictInv. -/
def strictInvDec (pnts : List ℚ) (D : Nat) : (t : KDNode) → Decidable (StrictInv pnts D t)
  | .leaf _ => .isTrue trivial
  | .node lt rt disc dd =>
    letI := strictInvDec pnts D lt
    letI := strictInvDec pnts D rt
    inferInstanceAs (Decidable ((∀ i ∈ treeInds lt, coord pnts D i dd < disc) ∧
      (∀ i ∈ treeInds rt, disc ≤ coord pnts D i dd) ∧
      StrictInv pnts D lt ∧ StrictInv pnts D rt))

instance (pnts : List ℚ) (D : Nat) (t : KDNode) : Decidable (StrictInv pnts D t) :=
  strictInvDec pnts D t

/-- Every leaf of the tree holds at most n indices. -/
def LeavesLE (n : Nat) : KDNode → Prop
  | .leaf idxs => idxs.length ≤ n
  | .node lt rt _ _ => LeavesLE n lt ∧ LeavesLE n rt

/-- Decision procedure for LeavesLE. -/
def leavesLEDec (n : Nat) : (t : KDNode) → Decidable (LeavesLE n t)
  | .leaf idxs => inferInstanceAs (Decidable (idxs.length ≤ n))
  | .node lt rt _ _ =>
    letI := leavesLEDec n lt
    letI := leavesLEDec n rt
    inferInstanceAs (Decidable (LeavesLE n lt ∧ LeavesLE n rt))

instance (n : Nat) (t : KDNode) : Decidable (LeavesLE n t) := leavesLEDec n t

/-- Every discriminant dimension of the tree is below D. -/
def DimsBelow (D : Nat) : KDNode → Prop
  | .leaf _ => True
  | .node lt rt _ dd => dd < D ∧ DimsBelow D lt ∧ DimsBelow D rt

/-- Decision procedure for DimsBelow. -/
def dimsBelowDec (D : Nat) : (t : KDNode) → Decidable (DimsBelow D t)
  | .leaf _ => .isTrue trivial
  | .node lt rt _ dd =>
    letI := dimsBelowDec D lt
    letI := dimsBelowDec D rt
    inferInstanceAs (Decidable (dd < D ∧ DimsBelow D lt ∧ DimsBelow D rt))

instance (D : Nat) (t : KDNode) : Decidable (DimsBelow D t) := dimsBelowDec D t

/-- The amended split invariant: every internal node either satisfies the strict
split property, or was produced by the degenerate fallback, in which case all of its
points lie weakly on a single side of the threshold. -/
def NodeInv (pnts : List ℚ) (D : Nat) : KDNode → Prop
  | .leaf _ => True
  | .node lt rt disc dd =>
    ((∀ i ∈ treeInds lt, coord pnts D i dd < disc) ∧
        (∀ i ∈ treeInds rt, disc ≤ coord pnts D i dd) ∨
      (∀ i ∈ treeInds lt ++ treeInds rt, disc ≤ coord pnts D i dd) ∨
      (∀ i ∈ treeInds lt ++ treeInds rt, coord pnts D i dd < disc)) ∧
    NodeInv pnts D lt ∧ NodeInv pnts D rt

/-- Specification of the partition loop on the range [l, r) of inds: the result keeps
the length and the multiset of inds, its split point stays within [l, r], everything
before the split point is strictly below disc on dimension dd, and everything from
the split point to the end of the array is at or above it. -/
def PartitionOut (pnts : List ℚ) (D dd : Nat) (disc : ℚ) (inds : List Nat) (l r : Nat)
    (out : List Nat × Nat) : Prop :=
  out.1.length = inds.length ∧ List.Perm out.1 inds ∧ l ≤ out.2 ∧ out.2 ≤ r ∧
  (∀ j, j < out.2 → coord pnts D (out.1.getD j 0) dd < disc) ∧
  (∀ j, out.2 ≤ j → j < inds.length → ¬ coord pnts D (out.1.getD j 0) dd < disc)

/- Concrete scenarios used by the counterexample and witness theorems below. All use
   D = 1, for which the split-dimension draw is rk_interval 0, whose value is 0 for
   every stream, so the scenarios do not depend on the modelled RNG algorithm. -/

/-- A trivial RNG algorithm for concrete runs (irrelevant at D = 1). -/
def G0 : Nat → Nat → Nat := fun _ _ => 0

/-- A trivial RNG state for concrete runs (irrelevant at D = 1). -/
def RK0 : RKState := ⟨fun _ => 0, 0⟩

/-- Two points 5 and 3 on a line. -/
def P1 : List ℚ := [5, 3]

/-- Forest of two trees over P1; both trees are the single leaf with indices 0, 1. -/
def F1 : ForestOut := buildForest P1 2 1 2 42 G0

/-- Search P1 from query 3 with two neighbours and budget two. -/
def run1 : Option SearchOut := searchCore P1 2 1 F1.trees [3] 2 2

/-- A single point. -/
def P2 : List ℚ := [0]

/-- Forest of one tree over the single point. -/
def F2 : ForestOut := buildForest P2 1 1 1 42 G0

/-- Search the one-point forest asking for two neighbours: the budget is raised to 2,
the single tree supplies one candidate, and the loop then pops the empty queue. -/
def run2bad : Option SearchOut := searchCore P2 1 1 F2.trees [0] 2 0

/-- The same search asking for one neighbour, which completes. -/
def run2ok : Option SearchOut := searchCore P2 1 1 F2.trees [0] 1 1

/-- The output of run2ok. -/
def W2out : SearchOut := ⟨[(0, 0)], [(0, 0)], []⟩

/-- Fifteen identical points, forcing the degenerate-split fallback at the root. -/
def P3 : List ℚ := List.replicate 15 1

/-- Forest of one tree over the identical points. -/
def F3 : ForestOut := buildForest P3 15 1 1 42 G0

/-- The single tree of F3: the fallback split leaves points equal to the threshold 1
in the left leaf. -/
def T3 : KDNode :=
  .node (.leaf [1, 2, 3, 4, 5, 6, 7]) (.leaf [8, 9, 10, 11, 12, 13, 14, 0]) 1 0

/-- Thirty points on a line: fifteen at 0, seven at 1, one at 2, seven at 3. The root
splits at the mean 1 and its right subtree splits again on the same dimension at 2. -/
def P4 : List ℚ :=
  List.replicate 15 0 ++ List.replicate 7 1 ++ [2] ++ List.replicate 7 3

/-- Forest of one tree over P4. -/
def F4 : ForestOut := buildForest P4 30 1 1 42 G0

/-- Search P4 from the origin with budget 16: the drain pops the right subtree entry
of bound 1 and pushes its far child with the accumulated bound 1 + 4 = 5, although
that child holds the point 2 at true squared distance 4. -/
def run4 : Option SearchOut := searchCore P4 30 1 F4.trees [0] 1 16

/-- Fifteen points 0, 1, ..., 14 on a line. -/
def PW : List ℚ := (List.range 15).map (fun n => (n : ℚ))

/-- The tree built over PW: a non-degenerate split at the mean 7 into strict leaves. -/
def TW : KDNode :=
  .node (.leaf [0, 1, 2, 3, 4, 5, 6]) (.leaf [8, 9, 10, 11, 12, 13, 14, 7]) 7 0

/-- Two points used for the budget-ceiling counterexample. -/
def P5 : List ℚ := [5, 3]

/-- Forest of a single tree over P5: one leaf with both points. -/
def F5 : ForestOut := buildForest P5 2 1 1 42 G0

/-- Search with numnn 1 and budget 1: the initial descent ignores the budget and
scores both points of its leaf. -/
def run5 : Option SearchOut := searchCore P5 2 1 F5.trees [3] 1 1

/-- The output of run5. -/
def O5 : SearchOut := ⟨[(1, 0)], [(0, 4), (1, 0)], []⟩

/-- Forest of two trees over PW: the first build rearranges the shared index array,
so the second tree starts from a non-identity permutation. -/
def F6 : ForestOut := buildForest PW 15 1 2 42 G0

/-- Two points 7 and 4 on a line. -/
def P7 : List ℚ := [7, 4]

/-- Forest of two trees over P7. -/
def F7 : ForestOut := buildForest P7 2 1 2 42 G0

/-- Exhaustive-budget search of P7 from query 4: the budget equals N = 2, yet point 1,
last in the first leaf, is never marked seen and is scored again in the second tree. -/
def run7 : Option SearchOut := searchCore P7 2 1 F7.trees [4] 2 2

/-- The push log of an optional search outcome, empty when the search failed. -/
def logOf (o : Option SearchOut) : List (ℚ × KDNode) :=
  o.elim [] (fun r => r.pushLog)

/-- The raw candidate list of an optional search outcome. -/
def nnsOf (o : Option SearchOut) : List (Nat × ℚ) :=
  o.elim [] (fun r => r.nns)

/-- The returned result list of an optional search outcome. -/
def resultOf (o : Option SearchOut) : List (Nat × ℚ) :=
  o.elim [] (fun r => r.result)

/- Theorems. First, basic facts about the embedded std::swap. -/

theorem length_swapL (xs : List Nat) (i j : Nat) : (swapL xs i j).length = xs.length := by
  simp [swapL]

theorem getD_set_self (xs : List Nat) (i : Nat) (a : Nat) (h : i < xs.length) :
    (xs.set i a).getD i 0 = a := by
  rw [List.getD_eq_getElem _ _ (by simpa using h)]
  simp [List.getElem_set]

theorem getD_set_other (xs : List Nat) (i j : Nat) (a : Nat) (h : i ≠ j) :
    (xs.set i a).getD j 0 = xs.getD j 0 := by
  simp [List.getD, List.getElem?_set_ne h]

theorem getD_swapL_snd (xs : List Nat) (i j : Nat) (hj : j < xs.length) :
    (swapL xs i j).getD j 0 = xs.getD i 0 := by
  rw [swapL, getD_set_self _ _ _ (by simpa using hj)]

theorem getD_swapL_other (xs : List Nat) (i j k : Nat) (h1 : k ≠ i) (h2 : k ≠ j) :
    (swapL xs i j).getD k 0 = xs.getD k 0 := by
  rw [swapL, getD_set_other _ _ _ _ (Ne.symm h2), getD_set_other _ _ _ _ (Ne.symm h1)]

theorem getD_cons_set_perm :
    ∀ (t : List Nat) (j : Nat) (a : Nat), j < t.length →
      List.Perm (t.getD j 0 :: t.set j a) (a :: t)
  | b :: t, 0, a, _ => by
    simpa using List.Perm.swap a b t
  | b :: t, j + 1, a, h => by
    have ht : j < t.length := by simpa using Nat.lt_of_succ_lt_succ h
    have s1 : List.Perm (t.getD j 0 :: b :: t.set j a) (b :: t.getD j 0 :: t.set j a) :=
      List.Perm.swap b (t.getD j 0) (t.set j a)
    have s2 : List.Perm (b :: t.getD j 0 :: t.set j a) (b :: a :: t) :=
      (getD_cons_set_perm t j a ht).cons b
    have s3 : List.Perm (b :: a :: t) (a :: b :: t) := List.Perm.swap a b t
    simpa using (s1.trans s2).trans s3

theorem swapL_perm :
    ∀ (xs : List Nat) (i j : Nat), i < xs.length → j < xs.length →
      List.Perm (swapL xs i j) xs
  | a :: t, 0, 0, _, _ => by
    simp [swapL]
  | a :: t, 0, j + 1, _, hj => by
    have ht : j < t.length := by simpa using Nat.lt_of_succ_lt_succ hj
    have he : swapL (a :: t) 0 (j + 1) = t.getD j 0 :: t.set j a := by
      simp [swapL, List.getD_cons_succ, List.getD_cons_zero]
    rw [he]
    exact getD_cons_set_perm t j a ht
  | a :: t, i + 1, 0, hi, _ => by
    have ht : i < t.length := by simpa using Nat.lt_of_succ_lt_succ hi
    have he : swapL (a :: t) (i + 1) 0 = t.getD i 0 :: t.set i a := by
      simp [swapL, List.getD_cons_succ, List.getD_cons_zero, List.set]
    rw [he]
    exact getD_cons_set_perm t i a ht
  | a :: t, i + 1, j + 1, hi, hj => by
    have he : swapL (a :: t) (i + 1) (j + 1) = a :: swapL t i j := by
      simp [swapL, List.getD_cons_succ, List.set]
    rw [he]
    exact (swapL_perm t i j (by simpa using Nat.lt_of_succ_lt_succ hi)
      (by simpa using Nat.lt_of_succ_lt_succ hj)).cons a

/- Correctness of the embedded partition loop. -/

theorem hoareGo_spec (pnts : List ℚ) (D dd : Nat) (disc : ℚ) :
    ∀ (gas : Nat) (inds : List Nat) (l r : Nat),
      gas + l = r → r ≤ inds.length →
      (∀ j, j < l → coord pnts D (inds.getD j 0) dd < disc) →
      (∀ j, r ≤ j → j < inds.length → ¬ coord pnts D (inds.getD j 0) dd < disc) →
      PartitionOut pnts D dd disc inds l r (hoareGo pnts D dd disc gas inds l r)
  | 0, inds, l, r, hgr, _, hpre, hsuf => by
    have hlr : l = r := by omega
    subst hlr
    exact ⟨rfl, List.Perm.refl _, Nat.le_refl _, Nat.le_refl _, hpre, hsuf⟩
  | gas + 1, inds, l, r, hgr, hr, hpre, hsuf => by
    rw [hoareGo]
    by_cases hc : coord pnts D (inds.getD l 0) dd < disc
    · rw [if_pos hc]
      have ih := hoareGo_spec pnts D dd disc gas inds (l + 1) r (by omega) hr
        (fun j hj => by
          rcases Nat.lt_succ_iff_lt_or_eq.mp hj with h | h
          · exact hpre j h
          · subst h; exact hc)
        hsuf
      exact ⟨ih.1, ih.2.1, Nat.le_trans (Nat.le_succ l) ih.2.2.1, ih.2.2.2.1,
        ih.2.2.2.2.1, ih.2.2.2.2.2⟩
    · rw [if_neg hc]
      have hllt : l < inds.length := by omega
      have hr1lt : r - 1 < inds.length := by omega
      have hlen1 : (swapL inds l (r - 1)).length = inds.length := length_swapL inds l (r - 1)
      have ih := hoareGo_spec pnts D dd disc gas (swapL inds l (r - 1)) l (r - 1)
        (by omega) (by omega)
        (fun j hj => by
          rw [getD_swapL_other inds l (r - 1) j (by omega) (by omega)]
          exact hpre j hj)
        (fun j hj1 hj2 => by
          rcases Nat.eq_or_lt_of_le hj1 with h | h
          · rw [← h, getD_swapL_snd inds l (r - 1) hr1lt]
            exact hc
          · rw [getD_swapL_other inds l (r - 1) j (by omega) (by omega)]
            exact hsuf j (by omega) (by omega))
      refine ⟨by rw [ih.1, hlen1], ih.2.1.trans (swapL_perm inds l (r - 1) hllt hr1lt),
        ih.2.2.1, Nat.le_trans ih.2.2.2.1 (by omega), ih.2.2.2.2.1, ?_⟩
      intro j hj1 hj2
      exact ih.2.2.2.2.2 j hj1 (by omega)

theorem hoarePartition_spec (pnts : List ℚ) (D dd : Nat) (disc : ℚ) (inds : List Nat) :
    PartitionOut pnts D dd disc inds 0 inds.length (hoarePartition pnts D dd disc inds) :=
  hoareGo_spec pnts D dd disc inds.length inds 0 inds.length (by omega) (Nat.le_refl _)
    (fun j hj => absurd hj (Nat.not_lt_zero j))
    (fun j hj1 hj2 => absurd hj2 (by omega))

/- Facts about splitStep derived from the partition specification. -/

theorem splitInds_length (pnts : List ℚ) (D : Nat) (inds : List Nat) (s : RKState) :
    (splitInds pnts D inds s).length = inds.length :=
  (hoarePartition_spec pnts D (choose_split pnts D inds s).1.1
    (choose_split pnts D inds s).1.2 inds).1

theorem splitInds_perm (pnts : List ℚ) (D : Nat) (inds : List Nat) (s : RKState) :
    List.Perm (splitInds pnts D inds s) inds :=
  (hoarePartition_spec pnts D (choose_split pnts D inds s).1.1
    (choose_split pnts D inds s).1.2 inds).2.1

theorem splitL_bounds (pnts : List ℚ) (D : Nat) (inds : List Nat) (s : RKState)
    (h : 14 < inds.length) :
    0 < splitL pnts D inds s ∧ splitL pnts D inds s < inds.length := by
  have hp := hoarePartition_spec pnts D (choose_split pnts D inds s).1.1
    (choose_split pnts D inds s).1.2 inds
  have hl0 := hp.2.2.2.1
  show 0 < (splitStep pnts D inds s).2.2.1 ∧ (splitStep pnts D inds s).2.2.1 < inds.length
  simp only [splitStep]
  split
  · constructor <;> omega
  · next hcond =>
    push_neg at hcond
    omega

theorem leftRange_length (pnts : List ℚ) (D : Nat) (inds : List Nat) (s : RKState)
    (h : 14 < inds.length) :
    (leftRange pnts D inds s).length = splitL pnts D inds s := by
  rw [leftRange, List.length_take, splitInds_length]
  exact Nat.min_eq_left (Nat.le_of_lt (splitL_bounds pnts D inds s h).2)

theorem rightRange_length (pnts : List ℚ) (D : Nat) (inds : List Nat) (s : RKState) :
    (rightRange pnts D inds s).length = inds.length - splitL pnts D inds s := by
  rw [rightRange, List.length_drop, splitInds_length]

/- Step equations of buildNode. -/

theorem buildNode_zero (pnts : List ℚ) (D : Nat) (inds : List Nat) (s : RKState) :
    buildNode pnts D 0 inds s = (.leaf inds, inds, s) := rfl

theorem buildNode_leafcase (pnts : List ℚ) (D fuel : Nat) (inds : List Nat) (s : RKState)
    (h : ¬ leaf_max_points < inds.length) :
    buildNode pnts D (fuel + 1) inds s = (.leaf inds, inds, s) := by
  rw [buildNode, if_neg h]

theorem buildNode_step (pnts : List ℚ) (D fuel : Nat) (inds : List Nat) (s : RKState)
    (h : leaf_max_points < inds.length) :
    buildNode pnts D (fuel + 1) inds s =
      (KDNode.node
          (buildNode pnts D fuel (leftRange pnts D inds s) (splitState pnts D inds s)).1
          (buildNode pnts D fuel (rightRange pnts D inds s)
            (buildNode pnts D fuel (leftRange pnts D inds s)
              (splitState pnts D inds s)).2.2).1
          (splitDisc pnts D inds s) (splitDim pnts D inds s),
        (buildNode pnts D fuel (leftRange pnts D inds s) (splitState pnts D inds s)).2.1 ++
          (buildNode pnts D fuel (rightRange pnts D inds s)
            (buildNode pnts D fuel (leftRange pnts D inds s)
              (splitState pnts D inds s)).2.2).2.1,
        (buildNode pnts D fuel (rightRange pnts D inds s)
          (buildNode pnts D fuel (leftRange pnts D inds s)
            (splitState pnts D inds s)).2.2).2.2) := by
  rw [buildNode, if_pos h]
  rfl

/- The build preserves the point multiset of its range. -/

theorem buildNode_perm (pnts : List ℚ) (D : Nat) :
    ∀ (fuel : Nat) (inds : List Nat) (s : RKState),
      List.Perm (treeInds (buildNode pnts D fuel inds s).1) inds ∧
      List.Perm (buildNode pnts D fuel inds s).2.1 inds
  | 0, inds, s => by
    rw [buildNode_zero]
    exact ⟨List.Perm.refl _, List.Perm.refl _⟩
  | fuel + 1, inds, s => by
    by_cases h : leaf_max_points < inds.length
    · rw [buildNode_step pnts D fuel inds s h]
      have ihl := buildNode_perm pnts D fuel (leftRange pnts D inds s)
        (splitState pnts D inds s)
      have ihr := buildNode_perm pnts D fuel (rightRange pnts D inds s)
        (buildNode pnts D fuel (leftRange pnts D inds s) (splitState pnts D inds s)).2.2
      have hcat : List.Perm (leftRange pnts D inds s ++ rightRange pnts D inds s) inds := by
        rw [leftRange, rightRange, List.take_append_drop]
        exact splitInds_perm pnts D inds s
      constructor
      · show List.Perm (treeInds (.node _ _ _ _)) inds
        rw [treeInds]
        exact ((ihl.1).append (ihr.1)).trans hcat
      · exact ((ihl.2).append (ihr.2)).trans hcat
    · rw [buildNode_leafcase pnts D fuel inds s h]
      exact ⟨List.Perm.refl _, List.Perm.refl _⟩

/- Termination content of the build recursion: the fuel is irrelevant as soon as it
covers the range length, because the degenerate fallback gives both children a
nonzero share strictly smaller than the range. -/

theorem buildNode_fuel_irrel (pnts : List ℚ) (D : Nat) :
    ∀ (fuel fuel2 : Nat) (inds : List Nat) (s : RKState),
      inds.length ≤ fuel → inds.length ≤ fuel2 →
      buildNode pnts D fuel inds s = buildNode pnts D fuel2 inds s
  | 0, fuel2, inds, s, h1, _ => by
    have hlen : inds.length = 0 := Nat.le_zero.mp h1
    have hnot : ¬ leaf_max_points < inds.length := by
      rw [hlen]; simp [leaf_max_points]
    cases fuel2 with
    | zero => rfl
    | succ f2 => rw [buildNode_zero, buildNode_leafcase pnts D f2 inds s hnot]
  | fuel + 1, fuel2, inds, s, h1, h2 => by
    by_cases h : leaf_max_points < inds.length
    · have h14 : 14 < inds.length := h
      cases fuel2 with
      | zero =>
        exfalso
        have := Nat.le_zero.mp h2
        omega
      | succ f2 =>
        have hb := splitL_bounds pnts D inds s h14
        have hlL : (leftRange pnts D inds s).length ≤ fuel := by
          rw [leftRange_length pnts D inds s h14]; omega
        have hlL2 : (leftRange pnts D inds s).length ≤ f2 := by
          rw [leftRange_length pnts D inds s h14]; omega
        have hlR : (rightRange pnts D inds s).length ≤ fuel := by
          rw [rightRange_length]; omega
        have hlR2 : (rightRange pnts D inds s).length ≤ f2 := by
          rw [rightRange_length]; omega
        have hL := buildNode_fuel_irrel pnts D fuel f2 (leftRange pnts D inds s)
          (splitState pnts D inds s) hlL hlL2
        have hR := buildNode_fuel_irrel pnts D fuel f2 (rightRange pnts D inds s)
          (buildNode pnts D f2 (leftRange pnts D inds s) (splitState pnts D inds s)).2.2
          hlR hlR2
        rw [buildNode_step pnts D fuel inds s h, buildNode_step pnts D f2 inds s h, hL, hR]
    · cases fuel2 with
      | zero =>
        have hlen : inds.length = 0 := Nat.le_zero.mp h2
        rw [buildNode_zero, buildNode_leafcase pnts D fuel inds s h]
      | succ f2 =>
        rw [buildNode_leafcase pnts D fuel inds s h, buildNode_leafcase pnts D f2 inds s h]

/- Every leaf of a built tree holds at most leaf_max_points indices, provided the fuel
covers the range, as it does at every call site. -/

theorem buildNode_leaves (pnts : List ℚ) (D : Nat) :
    ∀ (fuel : Nat) (inds : List Nat) (s : RKState), inds.length ≤ fuel →
      LeavesLE 14 (buildNode pnts D fuel inds s).1
  | 0, inds, s, h1 => by
    rw [buildNode_zero]
    show inds.length ≤ 14
    omega
  | fuel + 1, inds, s, h1 => by
    by_cases h : leaf_max_points < inds.length
    · have h14 : 14 < inds.length := h
      have hb := splitL_bounds pnts D inds s h14
      have hlL : (leftRange pnts D inds s).length ≤ fuel := by
        rw [leftRange_length pnts D inds s h14]; omega
      have hlR : (rightRange pnts D inds s).length ≤ fuel := by
        rw [rightRange_length]; omega
      rw [buildNode_step pnts D fuel inds s h]
      exact ⟨buildNode_leaves pnts D fuel (leftRange pnts D inds s)
          (splitState pnts D inds s) hlL,
        buildNode_leaves pnts D fuel (rightRange pnts D inds s)
          (buildNode pnts D fuel (leftRange pnts D inds s) (splitState pnts D inds s)).2.2
          hlR⟩
    · rw [buildNode_leafcase pnts D fuel inds s h]
      show inds.length ≤ 14
      simp [leaf_max_points] at h
      exact h

/- Index extraction for members of take and drop ranges. -/

theorem mem_take_getD (l : List Nat) (n i : Nat) (h : i ∈ l.take n) :
    ∃ j, j < n ∧ j < l.length ∧ l.getD j 0 = i := by
  rw [List.mem_iff_getElem] at h
  obtain ⟨j, hj, he⟩ := h
  have hj2 : j < n ∧ j < l.length := by
    rw [List.length_take] at hj
    omega
  refine ⟨j, hj2.1, hj2.2, ?_⟩
  rw [List.getD_eq_getElem l 0 hj2.2, ← he, List.getElem_take]

theorem mem_drop_getD (l : List Nat) (n i : Nat) (h : i ∈ l.drop n) :
    ∃ j, n ≤ j ∧ j < l.length ∧ l.getD j 0 = i := by
  rw [List.mem_iff_getElem] at h
  obtain ⟨j, hj, he⟩ := h
  have hj2 : n + j < l.length := by
    rw [List.length_drop] at hj
    omega
  refine ⟨n + j, Nat.le_add_right n j, hj2, ?_⟩
  rw [List.getD_eq_getElem l 0 hj2, ← he, List.getElem_drop]

/- The partition specification restated through the splitStep accessors. -/

theorem splitStep_partition (pnts : List ℚ) (D : Nat) (inds : List Nat) (s : RKState) :
    PartitionOut pnts D (splitDim pnts D inds s) (splitDisc pnts D inds s) inds
      0 inds.length (splitInds pnts D inds s, partL0 pnts D inds s) :=
  hoarePartition_spec pnts D (choose_split pnts D inds s).1.1
    (choose_split pnts D inds s).1.2 inds

theorem splitL_eq (pnts : List ℚ) (D : Nat) (inds : List Nat) (s : RKState) :
    splitL pnts D inds s =
      if partL0 pnts D inds s = 0 ∨ partL0 pnts D inds s = inds.length
      then inds.length / 2 else partL0 pnts D inds s := rfl

/- The amended split invariant holds for every built node. -/

theorem buildNode_nodeInv (pnts : List ℚ) (D : Nat) :
    ∀ (fuel : Nat) (inds : List Nat) (s : RKState),
      NodeInv pnts D (buildNode pnts D fuel inds s).1
  | 0, inds, s => by
    rw [buildNode_zero]
    trivial
  | fuel + 1, inds, s => by
    by_cases h : leaf_max_points < inds.length
    · rw [buildNode_step pnts D fuel inds s h]
      have ihl := buildNode_nodeInv pnts D fuel (leftRange pnts D inds s)
        (splitState pnts D inds s)
      have ihr := buildNode_nodeInv pnts D fuel (rightRange pnts D inds s)
        (buildNode pnts D fuel (leftRange pnts D inds s) (splitState pnts D inds s)).2.2
      have hpermL := (buildNode_perm pnts D fuel (leftRange pnts D inds s)
        (splitState pnts D inds s)).1
      have hpermR := (buildNode_perm pnts D fuel (rightRange pnts D inds s)
        (buildNode pnts D fuel (leftRange pnts D inds s) (splitState pnts D inds s)).2.2).1
      have hp := splitStep_partition pnts D inds s
      have hsl : (splitInds pnts D inds s).length = inds.length :=
        splitInds_length pnts D inds s
      refine ⟨?_, ihl, ihr⟩
      by_cases h0 : partL0 pnts D inds s = 0 ∨ partL0 pnts D inds s = inds.length
      · rcases h0 with h0 | h0
        · refine Or.inr (Or.inl ?_)
          intro i hi
          have hi2 : i ∈ leftRange pnts D inds s ∨ i ∈ rightRange pnts D inds s := by
            rcases List.mem_append.mp hi with hi | hi
            · exact Or.inl (hpermL.mem_iff.mp hi)
            · exact Or.inr (hpermR.mem_iff.mp hi)
          have hj : ∃ j, j < (splitInds pnts D inds s).length ∧
              (splitInds pnts D inds s).getD j 0 = i := by
            rcases hi2 with hi2 | hi2
            · obtain ⟨j, _, hj2, hj3⟩ := mem_take_getD _ _ _ hi2
              exact ⟨j, hj2, hj3⟩
            · obtain ⟨j, _, hj2, hj3⟩ := mem_drop_getD _ _ _ hi2
              exact ⟨j, hj2, hj3⟩
          obtain ⟨j, hj1, hj2⟩ := hj
          have := hp.2.2.2.2.2 j (by omega) (by omega)
          rw [hj2] at this
          exact not_lt.mp this
        · refine Or.inr (Or.inr ?_)
          intro i hi
          have hi2 : i ∈ leftRange pnts D inds s ∨ i ∈ rightRange pnts D inds s := by
            rcases List.mem_append.mp hi with hi | hi
            · exact Or.inl (hpermL.mem_iff.mp hi)
            · exact Or.inr (hpermR.mem_iff.mp hi)
          have hj : ∃ j, j < (splitInds pnts D inds s).length ∧
              (splitInds pnts D inds s).getD j 0 = i := by
            rcases hi2 with hi2 | hi2
            · obtain ⟨j, _, hj2, hj3⟩ := mem_take_getD _ _ _ hi2
              exact ⟨j, hj2, hj3⟩
            · obtain ⟨j, _, hj2, hj3⟩ := mem_drop_getD _ _ _ hi2
              exact ⟨j, hj2, hj3⟩
          obtain ⟨j, hj1, hj2⟩ := hj
          have := hp.2.2.2.2.1 j (by omega)
          rw [hj2] at this
          exact this
      · refine Or.inl ⟨?_, ?_⟩
        · intro i hi
          have hi2 : i ∈ leftRange pnts D inds s := hpermL.mem_iff.mp hi
          obtain ⟨j, hj1, hj2, hj3⟩ := mem_take_getD _ _ _ hi2
          have hle : splitL pnts D inds s = partL0 pnts D inds s := by
            rw [splitL_eq, if_neg h0]
          have := hp.2.2.2.2.1 j (by omega)
          rw [hj3] at this
          exact this
        · intro i hi
          have hi2 : i ∈ rightRange pnts D inds s := hpermR.mem_iff.mp hi
          obtain ⟨j, hj1, hj2, hj3⟩ := mem_drop_getD _ _ _ hi2
          have hle : splitL pnts D inds s = partL0 pnts D inds s := by
            rw [splitL_eq, if_neg h0]
          have := hp.2.2.2.2.2 j (by omega) (by omega)
          rw [hj3] at this
          exact not_lt.mp this
    · rw [buildNode_leafcase pnts D fuel inds s h]
      trivial

/- Step equations of nodeSearch. -/

theorem nodeSearch_leaf (q pnts : List ℚ) (D : Nat) (idxs : List Nat)
    (m : ℚ) (nns : List (Nat × ℚ)) (seen : List Bool) :
    nodeSearch q pnts D (.leaf idxs) m nns seen =
      ⟨[], (leafScan q pnts D idxs nns seen).1, (leafScan q pnts D idxs nns seen).2⟩ := rfl

theorem nodeSearch_node_lt (q pnts : List ℚ) (D : Nat) (lt rt : KDNode) (disc : ℚ)
    (dd : Nat) (m : ℚ) (nns : List (Nat × ℚ)) (seen : List Bool)
    (h : q.getD dd 0 - disc < 0) :
    nodeSearch q pnts D (.node lt rt disc dd) m nns seen =
      ⟨(m + (q.getD dd 0 - disc) * (q.getD dd 0 - disc), rt) ::
          (nodeSearch q pnts D lt m nns seen).pushes,
        (nodeSearch q pnts D lt m nns seen).nns,
        (nodeSearch q pnts D lt m nns seen).seen⟩ := by
  simp only [nodeSearch]
  rw [if_pos h]

theorem nodeSearch_node_ge (q pnts : List ℚ) (D : Nat) (lt rt : KDNode) (disc : ℚ)
    (dd : Nat) (m : ℚ) (nns : List (Nat × ℚ)) (seen : List Bool)
    (h : ¬ q.getD dd 0 - disc < 0) :
    nodeSearch q pnts D (.node lt rt disc dd) m nns seen =
      ⟨(m + (q.getD dd 0 - disc) * (q.getD dd 0 - disc), lt) ::
          (nodeSearch q pnts D rt m nns seen).pushes,
        (nodeSearch q pnts D rt m nns seen).nns,
        (nodeSearch q pnts D rt m nns seen).seen⟩ := by
  simp only [nodeSearch]
  rw [if_neg h]

/- Single-axis decomposition of the squared distance. -/

theorem axis_le_sqDist (q pnts : List ℚ) (D i dd : Nat) (h : dd < D) :
    (q.getD dd 0 - coord pnts D i dd) ^ 2 ≤ sqDist q pnts D i := by
  apply List.single_le_sum
  · intro x hx
    obtain ⟨d, _, rfl⟩ := List.mem_map.mp hx
    exact sq_nonneg _
  · exact List.mem_map.mpr ⟨dd, List.mem_range.mpr h, rfl⟩

/- Validity of one push: for strict-invariant trees, every frontier entry exceeds its
base bound by at most the squared distance to any point of its subtree. -/

theorem nodeSearch_pushes_bound (q pnts : List ℚ) (D : Nat) :
    ∀ (t : KDNode) (m : ℚ) (nns : List (Nat × ℚ)) (seen : List Bool),
      StrictInv pnts D t → DimsBelow D t →
      ∀ e ∈ (nodeSearch q pnts D t m nns seen).pushes, ∀ i ∈ treeInds e.2,
        e.1 ≤ m + sqDist q pnts D i
  | .leaf idxs, m, nns, seen, _, _ => by
    intro e he
    rw [nodeSearch_leaf] at he
    cases he
  | .node lt rt disc dd, m, nns, seen, hS, hD => by
    intro e he i hi
    have hdd : dd < D := hD.1
    by_cases hd : q.getD dd 0 - disc < 0
    · rw [nodeSearch_node_lt q pnts D lt rt disc dd m nns seen hd] at he
      rcases List.mem_cons.mp he with he | he
      · subst he
        have hco : disc ≤ coord pnts D i dd := hS.2.1 i hi
        have hax : (q.getD dd 0 - disc) * (q.getD dd 0 - disc) ≤ sqDist q pnts D i := by
          have h1 : -(coord pnts D i dd - q.getD dd 0) ≤ q.getD dd 0 - disc := by linarith
          have h2 : q.getD dd 0 - disc ≤ coord pnts D i dd - q.getD dd 0 := by linarith
          have hsq := sq_le_sq' h1 h2
          have heq : (coord pnts D i dd - q.getD dd 0) ^ 2 =
              (q.getD dd 0 - coord pnts D i dd) ^ 2 := by ring
          have := axis_le_sqDist q pnts D i dd hdd
          calc (q.getD dd 0 - disc) * (q.getD dd 0 - disc)
              = (q.getD dd 0 - disc) ^ 2 := by ring
            _ ≤ (coord pnts D i dd - q.getD dd 0) ^ 2 := hsq
            _ = (q.getD dd 0 - coord pnts D i dd) ^ 2 := heq
            _ ≤ sqDist q pnts D i := this
        show m + (q.getD dd 0 - disc) * (q.getD dd 0 - disc) ≤ m + sqDist q pnts D i
        linarith
      · exact nodeSearch_pushes_bound q pnts D lt m nns seen hS.2.2.1 hD.2.1 e he i hi
    · rw [nodeSearch_node_ge q pnts D lt rt disc dd m nns seen hd] at he
      rcases List.mem_cons.mp he with he | he
      · subst he
        have hco : coord pnts D i dd < disc := hS.1 i hi
        have hax : (q.getD dd 0 - disc) * (q.getD dd 0 - disc) ≤ sqDist q pnts D i := by
          have h1 : -(q.getD dd 0 - coord pnts D i dd) ≤ q.getD dd 0 - disc := by linarith
          have h2 : q.getD dd 0 - disc ≤ q.getD dd 0 - coord pnts D i dd := by linarith
          have hsq := sq_le_sq' h1 h2
          have := axis_le_sqDist q pnts D i dd hdd
          calc (q.getD dd 0 - disc) * (q.getD dd 0 - disc)
              = (q.getD dd 0 - disc) ^ 2 := by ring
            _ ≤ (q.getD dd 0 - coord pnts D i dd) ^ 2 := hsq
            _ ≤ sqDist q pnts D i := this
        show m + (q.getD dd 0 - disc) * (q.getD dd 0 - disc) ≤ m + sqDist q pnts D i
        linarith
      · exact nodeSearch_pushes_bound q pnts D rt m nns seen hS.2.2.2 hD.2.2 e he i hi

/- Growth bounds on the candidate list. -/

theorem leafScan_len (q pnts : List ℚ) (D : Nat) :
    ∀ (idxs : List Nat) (nns : List (Nat × ℚ)) (seen : List Bool),
      (leafScan q pnts D idxs nns seen).1.length ≤ nns.length + idxs.length
  | [], nns, seen => by simp [leafScan]
  | [i], nns, seen => by
    simp only [leafScan]
    by_cases h : seen.getD i false = true
    · rw [if_pos h]
      simp
    · rw [if_neg h]
      simp
  | i :: j :: rest, nns, seen => by
    simp only [leafScan]
    by_cases h : seen.getD i false = true
    · rw [if_pos h]
      have := leafScan_len q pnts D (j :: rest) nns seen
      simp only [List.length_cons] at this ⊢
      omega
    · rw [if_neg h]
      have := leafScan_len q pnts D (j :: rest) (nns ++ [(i, sqDist q pnts D i)])
        (seen.set i true)
      simp only [List.length_cons, List.length_append, List.length_nil] at this ⊢
      omega

theorem nodeSearch_nns_len (q pnts : List ℚ) (D : Nat) :
    ∀ (t : KDNode) (m : ℚ) (nns : List (Nat × ℚ)) (seen : List Bool),
      LeavesLE 14 t →
      (nodeSearch q pnts D t m nns seen).nns.length ≤ nns.length + 14
  | .leaf idxs, m, nns, seen, hL => by
    rw [nodeSearch_leaf]
    show (leafScan q pnts D idxs nns seen).1.length ≤ nns.length + 14
    have h1 := leafScan_len q pnts D idxs nns seen
    have h2 : idxs.length ≤ 14 := hL
    omega
  | .node lt rt disc dd, m, nns, seen, hL => by
    by_cases hd : q.getD dd 0 - disc < 0
    · rw [nodeSearch_node_lt q pnts D lt rt disc dd m nns seen hd]
      exact nodeSearch_nns_len q pnts D lt m nns seen hL.1
    · rw [nodeSearch_node_ge q pnts D lt rt disc dd m nns seen hd]
      exact nodeSearch_nns_len q pnts D rt m nns seen hL.2

/- Every subtree pushed on the frontier inherits the leaf bound. -/

theorem nodeSearch_pushes_leaves (q pnts : List ℚ) (D : Nat) :
    ∀ (t : KDNode) (m : ℚ) (nns : List (Nat × ℚ)) (seen : List Bool),
      LeavesLE 14 t →
      ∀ e ∈ (nodeSearch q pnts D t m nns seen).pushes, LeavesLE 14 e.2
  | .leaf idxs, m, nns, seen, _ => by
    intro e he
    rw [nodeSearch_leaf] at he
    cases he
  | .node lt rt disc dd, m, nns, seen, hL => by
    intro e he
    by_cases hd : q.getD dd 0 - disc < 0
    · rw [nodeSearch_node_lt q pnts D lt rt disc dd m nns seen hd] at he
      rcases List.mem_cons.mp he with he | he
      · subst he
        exact hL.2
      · exact nodeSearch_pushes_leaves q pnts D lt m nns seen hL.1 e he
    · rw [nodeSearch_node_ge q pnts D lt rt disc dd m nns seen hd] at he
      rcases List.mem_cons.mp he with he | he
      · subst he
        exact hL.1
      · exact nodeSearch_pushes_leaves q pnts D rt m nns seen hL.2 e he

/- The final sort preserves the candidate count. -/

theorem length_insertByDist (x : Nat × ℚ) :
    ∀ l : List (Nat × ℚ), (insertByDist x l).length = l.length + 1
  | [] => rfl
  | y :: ys => by
    by_cases h : x.2 < y.2
    · simp [insertByDist, h]
    · simp [insertByDist, h, length_insertByDist x ys]

theorem length_sortByDist : ∀ l : List (Nat × ℚ), (sortByDist l).length = l.length
  | [] => rfl
  | x :: xs => by simp [sortByDist, length_insertByDist, length_sortByDist xs]

/- The popped entry and the remaining queue both come from the original queue. -/

theorem popMin_mem :
    ∀ (queue : List (ℚ × KDNode)) (e : ℚ × KDNode) (rest : List (ℚ × KDNode)),
      popMin queue = some (e, rest) → e ∈ queue ∧ ∀ x ∈ rest, x ∈ queue
  | [], e, rest, h => by cases h
  | x :: xs, e, rest, h => by
    rw [popMin] at h
    cases hm : popMin xs with
    | none =>
      rw [hm] at h
      simp only [Option.some.injEq, Prod.mk.injEq] at h
      obtain ⟨rfl, rfl⟩ := h
      exact ⟨List.mem_cons_self x xs, by intro y hy; cases hy⟩
    | some mr =>
      obtain ⟨m, mrest⟩ := mr
      rw [hm] at h
      have h2 : (if x.1 ≤ m.1 then some (x, xs) else some (m, x :: mrest)) =
          some (e, rest) := h
      have ih := popMin_mem xs m mrest hm
      by_cases hc : x.1 ≤ m.1
      · rw [if_pos hc] at h2
        simp only [Option.some.injEq, Prod.mk.injEq] at h2
        obtain ⟨rfl, rfl⟩ := h2
        exact ⟨List.mem_cons_self x xs, fun y hy => List.mem_cons_of_mem x hy⟩
      · rw [if_neg hc] at h2
        simp only [Option.some.injEq, Prod.mk.injEq] at h2
        obtain ⟨rfl, rfl⟩ := h2
        refine ⟨List.mem_cons_of_mem x ih.1, ?_⟩
        intro y hy
        rcases List.mem_cons.mp hy with hy | hy
        · exact hy ▸ List.mem_cons_self x xs
        · exact List.mem_cons_of_mem x (ih.2 y hy)

/- The budget loop only returns a candidate list at least as long as the budget. -/

theorem drain_some_le (q pnts : List ℚ) (D nchecks : Nat) :
    ∀ (fuel : Nat) (queue : List (ℚ × KDNode)) (nns : List (Nat × ℚ)) (seen : List Bool)
      (log : List (ℚ × KDNode)) (nns2 : List (Nat × ℚ)) (log2 : List (ℚ × KDNode)),
      drain q pnts D nchecks fuel queue nns seen log = some (nns2, log2) →
      nchecks ≤ nns2.length
  | 0, queue, nns, seen, log, nns2, log2, h => by cases h
  | fuel + 1, queue, nns, seen, log, nns2, log2, h => by
    rw [drain] at h
    by_cases hc : nns.length < nchecks
    · rw [if_pos hc] at h
      cases hp : popMin queue with
      | none => rw [hp] at h; cases h
      | some pr =>
        obtain ⟨e, rest⟩ := pr
        rw [hp] at h
        exact drain_some_le q pnts D nchecks fuel _ _ _ _ _ _ h
    · rw [if_neg hc] at h
      simp only [Option.some.injEq, Prod.mk.injEq] at h
      obtain ⟨rfl, rfl⟩ := h
      omega

/- The budget loop overshoots the budget by at most one leaf. -/

theorem drain_nns_bound (q pnts : List ℚ) (D nchecks : Nat) :
    ∀ (fuel : Nat) (queue : List (ℚ × KDNode)) (nns : List (Nat × ℚ)) (seen : List Bool)
      (log : List (ℚ × KDNode)) (nns2 : List (Nat × ℚ)) (log2 : List (ℚ × KDNode)),
      (∀ e ∈ queue, LeavesLE 14 e.2) →
      drain q pnts D nchecks fuel queue nns seen log = some (nns2, log2) →
      nns2.length ≤ max nns.length (nchecks + 13)
  | 0, queue, nns, seen, log, nns2, log2, _, h => by cases h
  | fuel + 1, queue, nns, seen, log, nns2, log2, hQ, h => by
    rw [drain] at h
    by_cases hc : nns.length < nchecks
    · rw [if_pos hc] at h
      cases hp : popMin queue with
      | none => rw [hp] at h; cases h
      | some pr =>
        obtain ⟨e, rest⟩ := pr
        rw [hp] at h
        have hpm := popMin_mem queue e rest hp
        have hLe : LeavesLE 14 e.2 := hQ e hpm.1
        have hgrow := nodeSearch_nns_len q pnts D e.2 e.1 nns seen hLe
        have hQ2 : ∀ x ∈ rest ++ (nodeSearch q pnts D e.2 e.1 nns seen).pushes,
            LeavesLE 14 x.2 := by
          intro x hx
          rcases List.mem_append.mp hx with hx | hx
          · exact hQ x (hpm.2 x hx)
          · exact nodeSearch_pushes_leaves q pnts D e.2 e.1 nns seen hLe x hx
        have ih := drain_nns_bound q pnts D nchecks fuel _ _ _ _ nns2 log2 hQ2 h
        omega
    · rw [if_neg hc] at h
      simp only [Option.some.injEq, Prod.mk.injEq] at h
      obtain ⟨rfl, rfl⟩ := h
      omega

/- The initial descents add at most one leaf of candidates per tree, and every queue
entry they leave behind is a subtree with bounded leaves. -/

theorem initDescents_spec (q pnts : List ℚ) (D : Nat) :
    ∀ (trees : List KDNode) (queue : List (ℚ × KDNode)) (nns : List (Nat × ℚ))
      (seen : List Bool),
      (∀ t ∈ trees, LeavesLE 14 t) → (∀ e ∈ queue, LeavesLE 14 e.2) →
      (initDescents q pnts D trees queue nns seen).2.1.length ≤
          nns.length + trees.length * 14 ∧
        (∀ e ∈ (initDescents q pnts D trees queue nns seen).1, LeavesLE 14 e.2)
  | [], queue, nns, seen, _, hQ => by
    rw [initDescents]
    exact ⟨by simp, hQ⟩
  | t :: ts, queue, nns, seen, hT, hQ => by
    rw [initDescents]
    have hLt : LeavesLE 14 t := hT t (List.mem_cons_self t ts)
    have hgrow := nodeSearch_nns_len q pnts D t 0 nns seen hLt
    have hQ2 : ∀ e ∈ queue ++ (nodeSearch q pnts D t 0 nns seen).pushes,
        LeavesLE 14 e.2 := by
      intro x hx
      rcases List.mem_append.mp hx with hx | hx
      · exact hQ x hx
      · exact nodeSearch_pushes_leaves q pnts D t 0 nns seen hLt x hx
    have ih := initDescents_spec q pnts D ts
      (queue ++ (nodeSearch q pnts D t 0 nns seen).pushes)
      (nodeSearch q pnts D t 0 nns seen).nns (nodeSearch q pnts D t 0 nns seen).seen
      (fun u hu => hT u (List.mem_cons_of_mem t hu)) hQ2
    refine ⟨?_, ih.2⟩
    have := ih.1
    simp only [List.length_cons]
    omega

/- Forest-level build facts. -/

theorem buildTrees_nodeInv (pnts : List ℚ) (D : Nat) :
    ∀ (t : Nat) (inds : List Nat) (s : RKState),
      ∀ tr ∈ (buildTrees pnts D t inds s).1, NodeInv pnts D tr
  | 0, inds, s => by
    intro tr htr
    cases htr
  | t + 1, inds, s => by
    intro tr htr
    have htr2 : tr ∈ (buildNode pnts D inds.length inds s).1 ::
        (buildTrees pnts D t (buildNode pnts D inds.length inds s).2.1
          (buildNode pnts D inds.length inds s).2.2).1 := htr
    rcases List.mem_cons.mp htr2 with h | h
    · rw [h]
      exact buildNode_nodeInv pnts D inds.length inds s
    · exact buildTrees_nodeInv pnts D t _ _ tr h

theorem buildTrees_logs (pnts : List ℚ) (D : Nat) :
    ∀ (t : Nat) (inds : List Nat) (s : RKState),
      (buildTrees pnts D t inds s).2.1.length = t ∧
      (∀ a ∈ (buildTrees pnts D t inds s).2.1.take 1, a = inds) ∧
      (∀ a ∈ (buildTrees pnts D t inds s).2.1, List.Perm a inds)
  | 0, inds, s => by
    refine ⟨rfl, ?_, ?_⟩ <;> intro a ha <;> cases ha
  | t + 1, inds, s => by
    have hstep : (buildTrees pnts D (t + 1) inds s).2.1 =
        inds :: (buildTrees pnts D t (buildNode pnts D inds.length inds s).2.1
          (buildNode pnts D inds.length inds s).2.2).2.1 := rfl
    have ih := buildTrees_logs pnts D t (buildNode pnts D inds.length inds s).2.1
      (buildNode pnts D inds.length inds s).2.2
    have hperm : List.Perm (buildNode pnts D inds.length inds s).2.1 inds :=
      (buildNode_perm pnts D inds.length inds s).2
    refine ⟨?_, ?_, ?_⟩
    · rw [hstep]
      simp [ih.1]
    · rw [hstep]
      intro a ha
      simp only [List.take_succ_cons, List.take_zero, List.mem_singleton] at ha
      exact ha
    · rw [hstep]
      intro a ha
      rcases List.mem_cons.mp ha with h | h
      · exact h ▸ List.Perm.refl a
      · exact (ih.2.2 a h).trans hperm

/-- Claim C3 (amended): every internal node of every tree of a built forest either
satisfies the strict split invariant, with the left subtree strictly below the
threshold along the discriminant dimension and the right subtree at or above it, or
was produced by the degenerate fallback, in which case all of its points lie weakly
on one side of the threshold and the strict property can fail. -/
theorem C3_split_invariant_up_to_fallback (pnts : List ℚ) (N D ntrees seed : Nat)
    (g : Nat → Nat → Nat) :
    ∀ t ∈ (buildForest pnts N D ntrees seed g).trees, NodeInv pnts D t := by
  intro t ht
  have ht2 : t ∈ (buildTrees pnts D ntrees (List.range N) (rk_seed g seed)).1 := ht
  exact buildTrees_nodeInv pnts D ntrees (List.range N) (rk_seed g seed) t ht2

/-- Claim C6 (amended): the forest build hands the index array to exactly ntrees tree
builds; only the first tree is guaranteed to start from the identity permutation;
every later tree starts from the array exactly as the previous build left it, which
is still a permutation of the identity but in general not the identity itself. -/
theorem C6_start_arrays_are_permutations (pnts : List ℚ) (N D ntrees seed : Nat)
    (g : Nat → Nat → Nat) :
    (buildForest pnts N D ntrees seed g).startLogs.length = ntrees ∧
    (∀ a ∈ (buildForest pnts N D ntrees seed g).startLogs.take 1, a = List.range N) ∧
    (∀ a ∈ (buildForest pnts N D ntrees seed g).startLogs, List.Perm a (List.range N)) :=
  buildTrees_logs pnts D ntrees (List.range N) (rk_seed g seed)

/-- Claim C8: whenever a range of more than leaf_max_points indices is split, the left
share is nonzero and strictly smaller than the range, the two child ranges receive
exactly l and N - l indices, and the build result is stable for every fuel of at
least the range length, so the recursive construction is well founded and
terminates for every point set, dimension count and RNG state. -/
theorem C8_split_produces_proper_children (pnts : List ℚ) (D : Nat) (inds : List Nat)
    (s : RKState) (h : 14 < inds.length) :
    0 < splitL pnts D inds s ∧ splitL pnts D inds s < inds.length ∧
    (leftRange pnts D inds s).length = splitL pnts D inds s ∧
    (rightRange pnts D inds s).length = inds.length - splitL pnts D inds s ∧
    ∀ fuel s2, inds.length ≤ fuel →
      buildNode pnts D fuel inds s2 = buildNode pnts D inds.length inds s2 :=
  ⟨(splitL_bounds pnts D inds s h).1, (splitL_bounds pnts D inds s h).2,
    leftRange_length pnts D inds s h, rightRange_length pnts D inds s,
    fun fuel s2 hf => buildNode_fuel_irrel pnts D fuel inds.length inds s2 hf (Nat.le_refl _)⟩

/-- Claim C9: the whole pipeline is a deterministic function of the point set, the
dimensions, the tree count, the seed, the RNG algorithm, the query, the neighbour
count and the budget: two forests built from equal inputs have identical tree
structures, identical build logs, and identical search results. -/
theorem C9_pipeline_deterministic (pnts : List ℚ) (N D ntrees seed : Nat)
    (g : Nat → Nat → Nat) (q : List ℚ) (k b : Nat) (f1 f2 : ForestOut)
    (h1 : f1 = buildForest pnts N D ntrees seed g)
    (h2 : f2 = buildForest pnts N D ntrees seed g) :
    f1.trees = f2.trees ∧ f1.startLogs = f2.startLogs ∧
      searchCore pnts N D f1.trees q k b = searchCore pnts N D f2.trees q k b := by
  subst h1
  subst h2
  exact ⟨rfl, rfl, rfl⟩

/-- Claim C10: searching a forest built with tree count zero leaves the frontier queue
empty while the candidate list is still below the raised budget, so the budget loop
invokes the pop on an empty priority queue: the error branch of the guarded pop in
the total embedding is reached and the search returns none. -/
theorem C10_empty_frontier_pop_reachable (pnts : List ℚ) (N D seed : Nat)
    (g : Nat → Nat → Nat) (q : List ℚ) (numnn b : Nat) (h : 1 ≤ numnn) :
    searchCore pnts N D (buildForest pnts N D 0 seed g).trees q numnn b = none := by
  have htr : (buildForest pnts N D 0 seed g).trees = [] := rfl
  rw [htr]
  have h1 : searchInit pnts N D [] q = ([], [], List.replicate N false) := rfl
  have h2 : searchDrained pnts N D [] q numnn b = none := by
    rw [searchDrained, h1]
    show drain q pnts D (max b numnn) (0 + 1) [] [] (List.replicate N false) [] = none
    rw [drain]
    rw [if_pos (show ([] : List (Nat × ℚ)).length < max b numnn by
      simp only [List.length_nil]
      omega)]
    rfl
  simp only [searchCore]
  rw [h2]

/-- Claim C2 (amended): whenever the search completes, without the budget loop popping
an empty frontier queue, the returned result list has exactly numnn entries; when
the point set has fewer than numnn points the empty pop is hit instead, the search
failing rather than returning min(numnn, N) results, as the counterexample shows. -/
theorem C2_completed_search_returns_numnn (pnts : List ℚ) (N D : Nat)
    (trees : List KDNode) (q : List ℚ) (numnn b : Nat) (out : SearchOut)
    (h : searchCore pnts N D trees q numnn b = some out) :
    out.result.length = numnn := by
  simp only [searchCore] at h
  cases hd : searchDrained pnts N D trees q numnn b with
  | none =>
    rw [hd] at h
    cases h
  | some p =>
    obtain ⟨nns, log⟩ := p
    rw [hd] at h
    have h2 : (if numnn ≤ nns.length then
        some (⟨(sortByDist nns).take (min numnn (max b numnn)), nns, log⟩ : SearchOut)
        else none) = some out := h
    by_cases hn : numnn ≤ nns.length
    · rw [if_pos hn] at h2
      injection h2 with h3
      have hb : max b numnn ≤ nns.length :=
        drain_some_le q pnts D (max b numnn) _ _ _ _ _ nns log hd
      rw [← h3]
      show ((sortByDist nns).take (min numnn (max b numnn))).length = numnn
      rw [List.length_take, length_sortByDist]
      have hmax : numnn ≤ max b numnn := le_max_right b numnn
      omega
    · rw [if_neg hn] at h2
      cases h2

/-- Claim C5 (amended): the raised budget is not a hard ceiling on the number of
distinct points scored: the initial per-tree descents ignore the budget entirely and
the final pop rechecks it only after scanning a whole leaf, so the provable bound is
the larger of one full leaf per tree and the raised budget plus thirteen. -/
theorem C5_scored_bounded_by_leaves_and_overshoot (pnts : List ℚ) (N D : Nat)
    (trees : List KDNode) (q : List ℚ) (numnn b : Nat) (out : SearchOut)
    (hT : ∀ t ∈ trees, LeavesLE 14 t)
    (h : searchCore pnts N D trees q numnn b = some out) :
    ((out.nns.map Prod.fst).dedup).length ≤
      max (trees.length * 14) (max b numnn + 13) := by
  simp only [searchCore] at h
  cases hd : searchDrained pnts N D trees q numnn b with
  | none =>
    rw [hd] at h
    cases h
  | some p =>
    obtain ⟨nns, log⟩ := p
    rw [hd] at h
    have h2 : (if numnn ≤ nns.length then
        some (⟨(sortByDist nns).take (min numnn (max b numnn)), nns, log⟩ : SearchOut)
        else none) = some out := h
    by_cases hn : numnn ≤ nns.length
    · rw [if_pos hn] at h2
      injection h2 with h3
      have hinit := initDescents_spec q pnts D trees [] [] (List.replicate N false) hT
        (by intro e he; cases he)
      have hdl := drain_nns_bound q pnts D (max b numnn) _ _ _ _ _ nns log hinit.2 hd
      have hded : ((nns.map Prod.fst).dedup).length ≤ nns.length := by
        have hsub := (List.dedup_sublist (nns.map Prod.fst)).length_le
        simpa using hsub
      have hi1 : (searchInit pnts N D trees q).2.1.length ≤
          ([] : List (Nat × ℚ)).length + trees.length * 14 := hinit.1
      simp only [List.length_nil] at hi1
      rw [← h3]
      show ((nns.map Prod.fst).dedup).length ≤ max (trees.length * 14) (max b numnn + 13)
      omega
    · rw [if_neg hn] at h2
      cases h2

/-- Claim C4 (amended): each frontier entry pushed during one best-bin-first descent
with base bound m is m plus the one-axis gap at its branching node; for trees
satisfying the strict split invariant, with in-range discriminant dimensions, every
point of the pushed subtree is at least that gap away, so the entry bound exceeds m
by at most the true squared distance. Entries pushed during the initial descents,
whose base is zero, are therefore true lower bounds; entries pushed after pops reuse
a popped bound as base and are not (see the counterexample). -/
theorem C4_single_axis_bound_valid (q pnts : List ℚ) (D : Nat) (t : KDNode) (m : ℚ)
    (nns : List (Nat × ℚ)) (seen : List Bool)
    (hS : StrictInv pnts D t) (hD : DimsBelow D t) :
    ∀ e ∈ (nodeSearch q pnts D t m nns seen).pushes, ∀ i ∈ treeInds e.2,
      e.1 ≤ m + sqDist q pnts D i :=
  nodeSearch_pushes_bound q pnts D t m nns seen hS hD

/- Concrete counterexample, witness and evaluation theorems. -/

/-- Claim C1 (code bug evaluation): with two points and two trees, the point that sits
last in the first leaf is never marked seen, is scored again by the second tree, and
the search returns a result list with a duplicated identifier. -/
theorem C1_last_leaf_point_scored_twice :
    run1 = some ⟨[(1, 0), (1, 0)], [(0, 4), (1, 0), (1, 0)], []⟩ ∧
    ¬ ((nnsOf run1).map Prod.fst).Nodup ∧ ¬ ((resultOf run1).map Prod.fst).Nodup := by
  with_unfolding_all decide

/-- Claim C2 (counterexample): over a one-point set, a request for two neighbours
drains the frontier empty and hits the guarded pop, so the search fails instead of
returning min(k, N) = 1 results. -/
theorem C2_small_point_set_fails :
    run2bad = none ∧ (run2bad.map fun o => o.result.length) ≠ some (min 2 1) := by
  with_unfolding_all decide

/-- Claim C2 (witness): a completed one-point search returns exactly numnn = 1 pair. -/
theorem C2_completed_search_returns_numnn_witness : W2out.result.length = 1 :=
  C2_completed_search_returns_numnn P2 1 1 F2.trees [0] 1 1 W2out
    (by with_unfolding_all decide)

/-- Claim C3 (counterexample): over fifteen identical points the degenerate fallback
produces an internal node whose left subtree holds points equal to the threshold,
violating the strict split invariant claimed for all internal nodes. -/
theorem C3_fallback_violates_strict_split :
    ¬ ∀ t ∈ F3.trees, StrictInv P3 1 t := by
  with_unfolding_all decide

/-- Claim C3 (witness): the amended invariant holds for the concrete fallback tree. -/
theorem C3_split_invariant_up_to_fallback_witness : NodeInv P3 1 T3 :=
  C3_split_invariant_up_to_fallback P3 15 1 1 42 G0 T3 (by with_unfolding_all decide)

set_option maxRecDepth 40000 in
/-- Claim C4 (counterexample): searching the thirty-point forest from the origin with
budget sixteen pushes a frontier entry of bound 5 whose subtree holds the point with
value 2 at true squared distance 4, so an entry bound exceeds the true distance to a
point of its subtree and is not a valid lower bound. -/
theorem C4_accumulated_bound_not_lower_bound :
    run4.isSome = true ∧
    ¬ ∀ e ∈ logOf run4, ∀ i ∈ treeInds e.2, e.1 ≤ sqDist [0] P4 1 i := by
  with_unfolding_all decide

/-- Claim C4 (witness): for the strict fifteen-point tree, the entry pushed during a
base-zero descent from the origin has bound 49, a true lower bound, and in
particular at most the squared distance 64 to point 8 of its subtree. -/
theorem C4_single_axis_bound_valid_witness : (49 : ℚ) ≤ 0 + sqDist [0] PW 1 8 :=
  C4_single_axis_bound_valid [0] PW 1 TW 0 [] (List.replicate 15 false)
    (by with_unfolding_all decide) (by with_unfolding_all decide)
    (49, .leaf [8, 9, 10, 11, 12, 13, 14, 7]) (by with_unfolding_all decide) 8
    (by with_unfolding_all decide)

/-- Claim C5 (counterexample): with two points in one leaf, one tree, one requested
neighbour and budget one, the initial descent scores two distinct points, exceeding
the raised budget, so the budget is not a hard ceiling on distinct points scored. -/
theorem C5_budget_exceeded_by_initial_descents :
    run5.isSome = true ∧ ¬ ((nnsOf run5).map Prod.fst).dedup.length ≤ max 1 1 := by
  with_unfolding_all decide

/-- Claim C5 (witness): the amended bound holds for the concrete two-point search. -/
theorem C5_scored_bounded_by_leaves_and_overshoot_witness :
    ((O5.nns.map Prod.fst).dedup).length ≤ max (F5.trees.length * 14) (max 1 1 + 13) :=
  C5_scored_bounded_by_leaves_and_overshoot P5 2 1 F5.trees [3] 1 1 O5
    (by with_unfolding_all decide) (by with_unfolding_all decide)

/-- Claim C6 (counterexample): building two trees over fifteen points, the second tree
starts from the index array as the first build left it, which is not the identity
permutation. -/
theorem C6_later_trees_start_from_permuted_array :
    ¬ ∀ a ∈ F6.startLogs, a = List.range 15 := by
  with_unfolding_all decide

/-- Claim C6 (witness): the second start array of the two-tree build is still a
permutation of the identity. -/
theorem C6_start_arrays_are_permutations_witness :
    List.Perm (F6.startLogs.getD 1 []) (List.range 15) :=
  (C6_start_arrays_are_permutations PW 15 1 2 42 G0).2.2 (F6.startLogs.getD 1 [])
    (by with_unfolding_all decide)

/-- Claim C7 (code bug evaluation): with budget equal to N = 2, the unmarked last leaf
point is scored twice and fills the budget, and the returned pairs are the duplicate
nearest point instead of the exact brute-force two nearest neighbours. -/
theorem C7_exhaustive_budget_differs_from_brute_force :
    run7.isSome = true ∧ resultOf run7 ≠ bruteNN P7 2 1 [4] 2 ∧
    bruteNN P7 2 1 [4] 2 = [(1, 0), (0, 9)] ∧ resultOf run7 = [(1, 0), (1, 0)] := by
  with_unfolding_all decide

/-- Claim C8 (witness): the fifteen-point range splits into proper children and the
build is stable in the fuel. -/
theorem C8_split_produces_proper_children_witness :
    0 < splitL PW 1 (List.range 15) RK0 ∧
    splitL PW 1 (List.range 15) RK0 < (List.range 15).length ∧
    buildNode PW 1 20 (List.range 15) RK0 =
      buildNode PW 1 (List.range 15).length (List.range 15) RK0 := by
  have h := C8_split_produces_proper_children PW 1 (List.range 15) RK0 (by decide)
  exact ⟨h.1, h.2.1, h.2.2.2.2 20 RK0 (by decide)⟩

/-- Claim C9 (witness): the concrete two-tree pipeline is deterministic. -/
theorem C9_pipeline_deterministic_witness :
    F1.trees = F1.trees ∧ F1.startLogs = F1.startLogs ∧
    searchCore P1 2 1 F1.trees [3] 2 2 = searchCore P1 2 1 F1.trees [3] 2 2 :=
  C9_pipeline_deterministic P1 2 1 2 42 G0 [3] 2 2 F1 F1 rfl rfl

/-- Claim C10 (witness): searching a zero-tree forest returns the error value. -/
theorem C10_empty_frontier_pop_reachable_witness :
    searchCore [] 0 0 (buildForest [] 0 0 0 42 G0).trees [] 1 0 = none :=
  C10_empty_frontier_pop_reachable [] 0 0 42 G0 [] 1 0 (by decide)

end Fastann
